import Mathlib

/-!
Verification of the transcript reconciliation engine and panel section
extractor of the granola-obsidian-sync repository.

The transcript reconciler lives in `transcript-processor.ts`
(`processTranscript`, `toProcessedSegment`, `deduplicateSegments`,
`calculateSimilarity`, `longestCommonSubsequence`, `formatTranscript`);
the panel extractor lives in `panel-processor.ts`
(`extractSectionsFromPanel` and the custom `listItem` turndown rule).

Modelling conventions:
* JavaScript strings are modelled as Lean `String`; the string operations
  the code uses (`toLowerCase`, `trim`, `includes`, `length`) are given
  structurally recursive definitions over the character list so that the
  kernel can evaluate them.
* JavaScript numbers are modelled as `Int` for millisecond timestamps and
  as `ℚ` for similarity scores (the similarity computation only performs
  exact divisions of small integers and one addition of 0.2).
* The `toRemove: Set<number>` of `deduplicateSegments` is modelled as a
  `List Nat`, and the two `for` loops as structurally recursive functions
  with an explicit iteration budget (`gas`), always called with enough gas
  to cover the whole index range, so the recursion mirrors the loop bounds.
-/

/-- Model of JavaScript `String.prototype.toLowerCase` (per-character lowering,
as the source applies it to transcript text). -/
def jsToLower (s : String) : String := ⟨s.data.map Char.toLower⟩

/-- Whitespace trimming on a character list: drop whitespace from both ends. -/
def trimChars (l : List Char) : List Char :=
  ((l.dropWhile Char.isWhitespace).reverse.dropWhile Char.isWhitespace).reverse

/-- Model of JavaScript `String.prototype.trim`. -/
def jsTrim (s : String) : String := ⟨trimChars s.data⟩

/-- Model of JavaScript `String.prototype.length`. -/
def jsLength (s : String) : Nat := s.data.length

/-- Does the character list start with `pat`? (Helper for substring search.) -/
def listStarts : List Char → List Char → Bool
  | [], _ => true
  | _ :: _, [] => false
  | a :: as, b :: bs => a = b && listStarts as bs

/-- Does `pat` occur as a contiguous run somewhere in the list? -/
def listHasSub (pat : List Char) : List Char → Bool
  | [] => listStarts pat []
  | b :: bs => listStarts pat (b :: bs) || listHasSub pat bs

/-- Model of JavaScript `s.includes(sub)`: `sub` occurs contiguously in `s`. -/
def strIncludes (s sub : String) : Bool := listHasSub sub.data s.data

/-- One row step of the longest-common-subsequence dynamic program: given
the previous row as a function (`prev l2 = LCS of the previous suffix of
`s1` against `l2``), compute the current row for head character `a`. -/
def lcsRow (prev : List Char → Nat) (a : Char) : List Char → Nat
  | [] => 0
  | b :: bs => if a = b then prev bs + 1 else max (lcsRow prev a bs) (prev (b :: bs))

/-- The longest-common-subsequence length over character lists.  The source
fills an (m+1)x(n+1) dynamic-programming table row by row with the
recurrence `dp[i][j] = (chars equal) ? dp[i-1][j-1] + 1 : max dp[i-1][j]
dp[i][j-1]`; this definition computes the same table one row at a time
(`lcsRow`), so that `lcsAux l1 l2` satisfies exactly that recurrence —
see `lcsAux_nil_left`, `lcsAux_nil_right`, `lcsAux_cons_cons`.  The
theorems `lcsAux_exists` and `lcsAux_ge` below prove that it computes the
length of a longest common subsequence. -/
def lcsAux : List Char → List Char → Nat
  | [] => fun _ => 0
  | a :: as => lcsRow (lcsAux as) a

/-- Model of `longestCommonSubsequence` from `transcript-processor.ts`. -/
def longestCommonSubsequence (s1 s2 : String) : Nat := lcsAux s1.data s2.data

/-- Model of `calculateSimilarity` from `transcript-processor.ts`. -/
def calculateSimilarity (text1 text2 : String) : ℚ :=
  let s1 := jsToLower text1
  let s2 := jsToLower text2
  if s1 = s2 then 1
  else if s1 = "" ∨ s2 = "" then 0
  else if strIncludes s1 s2 || strIncludes s2 s1 then
    let minLen := min (jsLength s1) (jsLength s2)
    let maxLen := max (jsLength s1) (jsLength s2)
    (minLen : ℚ) / (maxLen : ℚ) + 1/5
  else (longestCommonSubsequence s1 s2 : ℚ) / (max (jsLength s1) (jsLength s2) : ℚ)

/-- Model of the `ProcessedSegment` interface of `transcript-processor.ts`
(`startTime` and `endTime` are epoch milliseconds). -/
structure ProcessedSegment where
  text : String
  speaker : String
  startTime : Int
  endTime : Int
  source : String
deriving DecidableEq, Repr

/-- Inner loop of `deduplicateSegments` (the `for (let j = i + 1; ...)` loop):
scan indices `j, j+1, ...` (with `gas` bounding the remaining iterations,
always called with `gas = segs.length - j`), skipping indices already in
`rm` (`toRemove`), stopping at the first segment past the window
(`other.startTime > windowEnd`), and on a conflict (`similarity >= θ`)
removing by priority: drop the `system` side of a microphone/system pair,
otherwise drop the shorter text (ties drop `j`); dropping `i` stops the
scan (the `break` statements of the source). -/
def innerLoop (segs : List ProcessedSegment) (W : Int) (θ : ℚ)
    (seg : ProcessedSegment) (i : Nat) : Nat → Nat → List Nat → List Nat
  | 0, _, rm => rm
  | gas + 1, j, rm =>
    match segs[j]? with
    | none => rm
    | some other =>
      if rm.contains j then innerLoop segs W θ seg i gas (j + 1) rm
      else if seg.startTime + W < other.startTime then rm
      else if θ ≤ calculateSimilarity seg.text other.text then
        if seg.source = "microphone" ∧ other.source = "system" then
          innerLoop segs W θ seg i gas (j + 1) (j :: rm)
        else if seg.source = "system" ∧ other.source = "microphone" then i :: rm
        else if jsLength other.text ≤ jsLength seg.text then
          innerLoop segs W θ seg i gas (j + 1) (j :: rm)
        else i :: rm
      else innerLoop segs W θ seg i gas (j + 1) rm

/-- Outer loop of `deduplicateSegments` (the `for (let i = 0; ...)` loop):
for each index `i` not already removed, run the inner scan starting at
`i + 1` with the window anchored at `segs[i].startTime`. -/
def outerLoop (segs : List ProcessedSegment) (W : Int) (θ : ℚ) :
    Nat → Nat → List Nat → List Nat
  | 0, _, rm => rm
  | gas + 1, i, rm =>
    match segs[i]? with
    | none => rm
    | some seg =>
      if rm.contains i then outerLoop segs W θ gas (i + 1) rm
      else
        outerLoop segs W θ gas (i + 1)
          (innerLoop segs W θ seg i (segs.length - (i + 1)) (i + 1) rm)

/-- The final `segments.filter((_, i) => !toRemove.has(i))` of
`deduplicateSegments`: keep the elements whose position (offset by `k`)
is not in `rm`. -/
def removeIndexed (rm : List Nat) : Nat → List ProcessedSegment → List ProcessedSegment
  | _, [] => []
  | k, s :: rest =>
    if rm.contains k then removeIndexed rm (k + 1) rest
    else s :: removeIndexed rm (k + 1) rest

/-- Model of `deduplicateSegments` from `transcript-processor.ts`; `W` is the
`timeWindowMs` parameter (default 4500) and `θ` the `similarityThreshold`
parameter (default 0.68). -/
def deduplicateSegments (segments : List ProcessedSegment) (W : Int) (θ : ℚ) :
    List ProcessedSegment :=
  if segments.isEmpty then []
  else removeIndexed (outerLoop segments W θ segments.length 0 []) 0 segments

/-- The loop of `formatTranscript`: `lines` is the accumulated output,
`cur` the `currentSpeaker` variable (`none` models `null`), `buf` the
`speakerText` array.  A flush happens when `currentSpeaker` is truthy
(non-null and non-empty, JavaScript string truthiness) and differs from
the next segment's speaker; the final flush happens when `currentSpeaker`
is truthy and the buffer is non-empty. -/
def formatLoop : List ProcessedSegment → List String → Option String → List String → List String
  | [], lines, cur, buf =>
    match cur with
    | some c =>
      if c ≠ "" ∧ buf ≠ [] then
        lines ++ [c ++ ":", jsTrim (String.intercalate " " buf), ""]
      else lines
    | none => lines
  | seg :: rest, lines, cur, buf =>
    match cur with
    | some c =>
      if c ≠ "" ∧ c ≠ seg.speaker then
        formatLoop rest (lines ++ [c ++ ":", jsTrim (String.intercalate " " buf), ""])
          (some seg.speaker) [seg.text]
      else formatLoop rest lines (some seg.speaker) (buf ++ [seg.text])
    | none => formatLoop rest lines (some seg.speaker) (buf ++ [seg.text])

/-- Model of `formatTranscript` from `transcript-processor.ts`. -/
def formatTranscript (segments : List ProcessedSegment) : String :=
  if segments.isEmpty then ""
  else String.intercalate "\n" (formatLoop segments [] none [])

/-- Specification-side decomposition of a segment list into maximal runs of
consecutive segments with the same speaker label. -/
def speakerRuns : List ProcessedSegment → List (List ProcessedSegment)
  | [] => []
  | s :: rest =>
    (s :: rest.takeWhile (fun t => t.speaker == s.speaker)) ::
      speakerRuns (rest.dropWhile (fun t => t.speaker == s.speaker))
  termination_by l => l.length
  decreasing_by
    simp only [List.length_cons]
    exact Nat.lt_succ_of_le (List.dropWhile_sublist _).length_le

/-- Specification-side rendering of one speaker run: the block
`"{speaker}:"`, the texts joined by single spaces (and trimmed), and a
blank-line separator. -/
def renderRun (g : List ProcessedSegment) : List String :=
  [(match g with | [] => "" | s :: _ => s.speaker) ++ ":",
   jsTrim (String.intercalate " " (g.map (fun s => s.text))), ""]

/-- Specification-side formatter: render each maximal same-speaker run as a
block and join all lines with newlines. -/
def formatSpec (l : List ProcessedSegment) : String :=
  String.intercalate "\n" ((speakerRuns l).map renderRun).flatten

/-- Model of the raw `TranscriptSegment` interface (all fields optional). -/
structure TranscriptSegment where
  text : Option String
  source : Option String
  start_timestamp : Option String
  end_timestamp : Option String
deriving DecidableEq, Repr

/-- Model of `toProcessedSegment` from `transcript-processor.ts`.  The
timestamp strings are parsed by the JavaScript `Date` runtime, which is
external to the repository; it is modelled by the function parameter
`getTime` (`getTime ts` is `new Date(ts).getTime()`).  A timestamp field
participates only when truthy (present and non-empty).  The source's
`segment.text!.trim()` (non-null assertion, callers filter out absent
text first) is modelled by defaulting an absent text to `""`. -/
def toProcessedSegment (getTime : String → Int) (segment : TranscriptSegment) :
    ProcessedSegment :=
  let startTime :=
    match segment.start_timestamp with
    | some ts => if ts ≠ "" then getTime ts else 0
    | none => 0
  let endTime :=
    match segment.end_timestamp with
    | some ts => if ts ≠ "" then getTime ts else startTime
    | none => startTime
  let speaker :=
    if segment.source = some "microphone" then "Me"
    else if segment.source = some "system" then "Them"
    else "Unknown"
  { text := jsTrim (segment.text.getD "")
    speaker := speaker
    startTime := startTime
    endTime := endTime
    source := (segment.source.getD "") }

/-- Model of a dynamically typed JavaScript value, as flows into
`processTranscript(transcriptData: any)`.  Numbers are modelled as `Int`
(the inputs exercised here are integers). -/
inductive JSValue where
  | vUndefined
  | vNull
  | vBool (b : Bool)
  | vNum (n : Int)
  | vStr (s : String)
  | vArr (elems : List JSValue)
  | vObj (fields : List (String × JSValue))

/-- JavaScript truthiness. -/
def jsTruthy : JSValue → Bool
  | .vUndefined => false
  | .vNull => false
  | .vBool b => b
  | .vNum n => n ≠ 0
  | .vStr s => s ≠ ""
  | .vArr _ => true
  | .vObj _ => true

/-- JavaScript `a || b`. -/
def jsOr (a b : JSValue) : JSValue := if jsTruthy a then a else b

/-- JavaScript property access `v?.k` (and `v.k` on primitives, which boxes
and yields `undefined` for unknown properties). -/
def getField (v : JSValue) (k : String) : JSValue :=
  match v with
  | .vObj fields =>
    match fields.find? (fun p => p.1 == k) with
    | some p => p.2
    | none => .vUndefined
  | _ => .vUndefined

/-- Strict equality `v === "s"` against a string literal. -/
def jsStrictEqStr (v : JSValue) (s : String) : Bool :=
  match v with
  | .vStr t => t = s
  | _ => false

/-- The value stored by `source: segment.source || ''` coerced into the
string-typed `ProcessedSegment.source` slot.  A falsy source becomes `""`;
a truthy non-string source is mapped to a sentinel string that is distinct
from every meaningful source label (downstream code only ever compares the
field against `"microphone"` and `"system"`), which is behaviourally
faithful. -/
def jsSourceString : JSValue → String
  | .vStr s => s
  | v => if jsTruthy v then "\x01nonstring" else ""

/-- The predicate of `segments.filter(s => s.text && s.text.trim())`,
in the `Except` monad because `.trim()` on a truthy non-string value
throws a `TypeError`. -/
def textPred (s : JSValue) : Except Unit Bool :=
  let t := getField s "text"
  if jsTruthy t then
    match t with
    | .vStr str => .ok (jsTruthy (.vStr (jsTrim str)))
    | _ => .error ()
  else .ok false

/-- `toProcessedSegment` applied to a dynamic segment object.  `getTime`
models the external `new Date(value).getTime()` runtime function.
`segment.text!.trim()` throws whenever `text` is not a string (the
non-null assertion is erased at runtime). -/
def toProcessedSegmentJS (getTime : JSValue → Int) (s : JSValue) :
    Except Unit ProcessedSegment :=
  match getField s "text" with
  | .vStr str =>
    let startTs := getField s "start_timestamp"
    let startTime := if jsTruthy startTs then getTime startTs else 0
    let endTs := getField s "end_timestamp"
    let endTime := if jsTruthy endTs then getTime endTs else startTime
    let src := getField s "source"
    let speaker :=
      if jsStrictEqStr src "microphone" then "Me"
      else if jsStrictEqStr src "system" then "Them"
      else "Unknown"
    .ok { text := jsTrim str
          speaker := speaker
          startTime := startTime
          endTime := endTime
          source := jsSourceString src }
  | _ => .error ()

/-- Model of `processTranscript` from `transcript-processor.ts` over dynamic
input.  `Except.error` models a thrown `TypeError`.  The segment extraction
follows the source: strings pass through, arrays are used directly,
otherwise `transcriptData?.segments || transcriptData?.transcript?.segments
|| []`; an empty segment list returns `transcriptData?.transcript || ''`
(whatever value that is); a truthy non-array `segments` value reaches
`.filter` and throws.  The sort models the stable `Array.prototype.sort`
with comparator `a.startTime - b.startTime`. -/
def processTranscriptJS (getTime : JSValue → Int) (v : JSValue) : Except Unit JSValue :=
  match v with
  | .vStr s => .ok (.vStr s)
  | _ =>
    let segsVal :=
      match v with
      | .vArr _ => v
      | _ =>
        jsOr (getField v "segments")
          (jsOr (getField (getField v "transcript") "segments") (.vArr []))
    match segsVal with
    | .vArr segs =>
      if segs.length = 0 then .ok (jsOr (getField v "transcript") (.vStr ""))
      else do
        let kept ← segs.filterM textPred
        let procs ← kept.mapM (toProcessedSegmentJS getTime)
        let sorted := procs.mergeSort (fun a b => decide (a.startTime ≤ b.startTime))
        .ok (.vStr (formatTranscript (deduplicateSegments sorted 4500 (68/100))))
    | _ => .error ()

/-- Model of a top-level node of a panel's parsed HTML document: either an
`<h3>` element (carrying its text content) or any other markup.  The
extractor walks the `<h3>` elements and the sibling runs between them;
this sibling sequence is the structure `extractSectionsFromPanel`
manipulates. -/
inductive PanelNode where
  | h3 (titleText : String)
  | other (html : String)

/-- Is the node an `<h3>` element? -/
def isH3 : PanelNode → Bool
  | .h3 _ => true
  | .other _ => false

/-- The outer HTML of a node (`$.html(el)`). -/
def htmlOf : PanelNode → String
  | .h3 t => "<h3>" ++ t ++ "</h3>"
  | .other h => h

/-- Model of the `PanelSection` interface of `panel-processor.ts`. -/
structure PanelSection where
  title : String
  content : String
deriving DecidableEq, Repr

/-- Model of `extractSectionsFromPanel` from `panel-processor.ts` over the
sibling sequence of the panel document.  `md` models the external
`turndownService.turndown` Markdown converter.  For each `<h3>` the
section body is the Markdown of the concatenated outer HTML of the
siblings up to the next `<h3>` (`nextUntil('h3')`), and a section is
pushed only when the trimmed title and the trimmed body are both
non-empty. -/
def extractSections (md : String → String) : List PanelNode → List PanelSection
  | [] => []
  | .h3 t :: rest =>
    let content := rest.takeWhile (fun n => !isH3 n)
    let body := jsTrim (md (String.join (content.map htmlOf)))
    let tl := jsTrim t
    (if tl ≠ "" ∧ body ≠ "" then [⟨tl, body⟩] else []) ++ extractSections md rest
  | .other _ :: rest => extractSections md rest

/-- Specification-side slicing: every `<h3>` heading paired with the sibling
content between it and the next `<h3>` (or the end of the document). -/
def headingSlices : List PanelNode → List (String × List PanelNode)
  | [] => []
  | .h3 t :: rest => (t, rest.takeWhile (fun n => !isH3 n)) :: headingSlices rest
  | .other _ :: rest => headingSlices rest

/-- Specification-side section extraction: one candidate section per
heading slice, kept exactly when trimmed title and trimmed rendered body
are non-empty. -/
def sectionsSpec (md : String → String) (nodes : List PanelNode) : List PanelSection :=
  (headingSlices nodes).filterMap (fun p =>
    let tl := jsTrim p.1
    let body := jsTrim (md (String.join (p.2.map htmlOf)))
    if tl ≠ "" ∧ body ≠ "" then some ⟨tl, body⟩ else none)

/-- JavaScript `content.replace(/\n/gm, '\n  ')`: every newline gains a
two-space indent after it. -/
def replaceNewlines : List Char → List Char
  | [] => []
  | c :: cs =>
    if c = '\n' then '\n' :: ' ' :: ' ' :: replaceNewlines cs
    else c :: replaceNewlines cs

/-- Model of the custom `listItem` turndown rule of `panel-processor.ts`
for a single `<li>`.  `parentName` is `node.parentNode.name`; `olStart` is
the parsed `start` attribute of the parent (`parseInt(parent.attribs.start)`
when the attribute is present and truthy, modelled directly as the parsed
integer; `none` when absent); `index` is the position of this `<li>` among
the parent's children.  The content is stripped of leading and trailing
whitespace and embedded newlines are re-indented by two spaces. -/
def listItemReplacement (bulletMarker : String) (parentName : String)
    (olStart : Option Int) (index : Nat) (content : String) : String :=
  let c : String := ⟨replaceNewlines (trimChars content.data)⟩
  let pfx :=
    if parentName = "ol" then toString (olStart.getD 1 + (index : Int)) ++ ". "
    else bulletMarker ++ " "
  pfx ++ c ++ "\n"

/-- Rendering of all items of one ordered list: the rule applied at each
zero-based child position, with the configured `-` bullet marker. -/
def renderOlItems (olStart : Option Int) (items : List String) : List String :=
  items.enum.map (fun p => listItemReplacement "-" "ol" olStart p.1 p.2)

/-! ### Longest-common-subsequence theory -/

/-- The empty first list has LCS length 0. -/
theorem lcsAux_nil_left (l2 : List Char) : lcsAux [] l2 = 0 := rfl

/-- The empty second list has LCS length 0. -/
theorem lcsAux_nil_right (l1 : List Char) : lcsAux l1 [] = 0 := by
  cases l1 <;> rfl

/-- The source's dynamic-programming recurrence, satisfied definitionally. -/
theorem lcsAux_cons_cons (a b : Char) (as bs : List Char) :
    lcsAux (a :: as) (b :: bs) =
      if a = b then lcsAux as bs + 1
      else max (lcsAux (a :: as) bs) (lcsAux as (b :: bs)) := rfl

/-- `lcsAux` is achieved by some common subsequence of the two lists. -/
theorem lcsAux_exists (l1 : List Char) : ∀ l2 : List Char,
    ∃ w : List Char, w.Sublist l1 ∧ w.Sublist l2 ∧ w.length = lcsAux l1 l2 := by
  induction l1 with
  | nil =>
    intro l2
    exact ⟨[], List.nil_sublist _, List.nil_sublist _, (lcsAux_nil_left _).symm⟩
  | cons a as ihas =>
    intro l2
    induction l2 with
    | nil =>
      exact ⟨[], List.nil_sublist _, List.nil_sublist _, (lcsAux_nil_right _).symm⟩
    | cons b bs ihbs =>
      by_cases hab : a = b
      · subst hab
        obtain ⟨w, h1, h2, h3⟩ := ihas bs
        refine ⟨a :: w, h1.cons₂ a, h2.cons₂ a, ?_⟩
        rw [lcsAux_cons_cons, if_pos rfl, List.length_cons, h3]
      · rcases le_or_lt (lcsAux as (b :: bs)) (lcsAux (a :: as) bs) with hle | hlt
        · obtain ⟨w, h1, h2, h3⟩ := ihbs
          refine ⟨w, h1, h2.cons b, ?_⟩
          rw [lcsAux_cons_cons, if_neg hab, max_eq_left hle]
          exact h3
        · obtain ⟨w, h1, h2, h3⟩ := ihas (b :: bs)
          refine ⟨w, h1.cons a, h2, ?_⟩
          rw [lcsAux_cons_cons, if_neg hab, max_eq_right hlt.le]
          exact h3

/-- `lcsAux` bounds the length of every common subsequence of the two lists. -/
theorem lcsAux_ge (l1 : List Char) : ∀ (l2 w : List Char),
    w.Sublist l1 → w.Sublist l2 → w.length ≤ lcsAux l1 l2 := by
  induction l1 with
  | nil =>
    intro l2 w h1 _
    simp [List.sublist_nil.mp h1]
  | cons a as ihas =>
    intro l2
    induction l2 with
    | nil =>
      intro w _ h2
      simp [List.sublist_nil.mp h2]
    | cons b bs ihbs =>
      intro w h1 h2
      by_cases hab : a = b
      · subst hab
        rw [lcsAux_cons_cons, if_pos rfl]
        cases w with
        | nil => exact Nat.zero_le _
        | cons c w' =>
          have hw'as : w'.Sublist as := by
            cases h1 with
            | cons _ h => exact List.sublist_of_cons_sublist h
            | cons₂ _ h => exact h
          have hw'bs : w'.Sublist bs := by
            cases h2 with
            | cons _ h => exact List.sublist_of_cons_sublist h
            | cons₂ _ h => exact h
          exact Nat.succ_le_succ (ihas bs w' hw'as hw'bs)
      · rw [lcsAux_cons_cons, if_neg hab]
        cases h1 with
        | cons _ h =>
          exact (ihas (b :: bs) w h h2).trans (le_max_right _ _)
        | cons₂ _ h =>
          cases h2 with
          | cons _ h2' =>
            exact (ihbs (a :: _) (h.cons₂ a) h2').trans (le_max_left _ _)
          | cons₂ _ h2' => exact absurd rfl hab

/-- The longest-common-subsequence length is symmetric. -/
theorem lcsAux_comm (l1 l2 : List Char) : lcsAux l1 l2 = lcsAux l2 l1 := by
  apply le_antisymm
  · obtain ⟨w, h1, h2, h3⟩ := lcsAux_exists l1 l2
    rw [← h3]
    exact lcsAux_ge l2 l1 w h2 h1
  · obtain ⟨w, h1, h2, h3⟩ := lcsAux_exists l2 l1
    rw [← h3]
    exact lcsAux_ge l1 l2 w h2 h1

/-! ### Substring containment characterization -/

/-- `listStarts pat l` holds exactly when `pat` is a prefix of `l`. -/
theorem listStarts_iff (pat : List Char) : ∀ l : List Char,
    listStarts pat l = true ↔ ∃ q, l = pat ++ q := by
  induction pat with
  | nil =>
    intro l
    simp [listStarts]
  | cons a as ih =>
    intro l
    cases l with
    | nil => simp [listStarts]
    | cons b bs =>
      simp only [listStarts, Bool.and_eq_true, decide_eq_true_eq, ih, List.cons_append,
        List.cons.injEq]
      constructor
      · rintro ⟨hab, q, hq⟩
        exact ⟨q, hab.symm, hq⟩
      · rintro ⟨q, hab, hq⟩
        exact ⟨hab.symm, q, hq⟩

/-- `listHasSub pat l` holds exactly when `pat` occurs contiguously in `l`. -/
theorem listHasSub_iff (pat : List Char) : ∀ l : List Char,
    listHasSub pat l = true ↔ ∃ p q, l = p ++ pat ++ q := by
  intro l
  induction l with
  | nil =>
    simp only [listHasSub, listStarts_iff]
    constructor
    · rintro ⟨q, hq⟩
      exact ⟨[], q, by simpa using hq⟩
    · rintro ⟨p, q, hpq⟩
      refine ⟨q, ?_⟩
      cases p <;> simp_all
  | cons b bs ih =>
    simp only [listHasSub, Bool.or_eq_true, listStarts_iff, ih]
    constructor
    · rintro (⟨q, hq⟩ | ⟨p, q, hpq⟩)
      · exact ⟨[], q, by simpa using hq⟩
      · exact ⟨b :: p, q, by simp [hpq]⟩
    · rintro ⟨p, q, hpq⟩
      cases p with
      | nil => exact Or.inl ⟨q, by simpa using hpq⟩
      | cons x p' =>
        simp only [List.cons_append, List.cons.injEq] at hpq
        exact Or.inr ⟨p', q, hpq.2⟩

/-- `strIncludes` agrees with contiguous-substring decomposition. -/
theorem strIncludes_iff (s sub : String) :
    strIncludes s sub = true ↔ ∃ p q, s.data = p ++ sub.data ++ q :=
  listHasSub_iff sub.data s.data

/-! ### Claim C2: the similarity formula -/

/-- C2: for all strings, the similarity score (computed case-insensitively)
is: 1 when the lowercased strings are identical; 0 when either is empty;
`min(len)/max(len) + 0.2` when one lowercased string contains the other;
and otherwise the character-level longest-common-subsequence length of the
lowercased strings divided by the maximum of their lengths.  The last two
conjuncts certify that `longestCommonSubsequence` really is the length of
a longest common subsequence (it is achieved, and it bounds every common
subsequence). -/
theorem calculateSimilarity_cases (t1 t2 : String) :
    (jsToLower t1 = jsToLower t2 → calculateSimilarity t1 t2 = 1) ∧
    (jsToLower t1 ≠ jsToLower t2 → (jsToLower t1 = "" ∨ jsToLower t2 = "") →
      calculateSimilarity t1 t2 = 0) ∧
    (jsToLower t1 ≠ jsToLower t2 → jsToLower t1 ≠ "" → jsToLower t2 ≠ "" →
      ((∃ p q, (jsToLower t1).data = p ++ (jsToLower t2).data ++ q) ∨
        (∃ p q, (jsToLower t2).data = p ++ (jsToLower t1).data ++ q)) →
      calculateSimilarity t1 t2 =
        (min (jsLength (jsToLower t1)) (jsLength (jsToLower t2)) : ℚ) /
          (max (jsLength (jsToLower t1)) (jsLength (jsToLower t2)) : ℚ) + 1/5) ∧
    (jsToLower t1 ≠ jsToLower t2 → jsToLower t1 ≠ "" → jsToLower t2 ≠ "" →
      ¬ ((∃ p q, (jsToLower t1).data = p ++ (jsToLower t2).data ++ q) ∨
        (∃ p q, (jsToLower t2).data = p ++ (jsToLower t1).data ++ q)) →
      calculateSimilarity t1 t2 =
        (longestCommonSubsequence (jsToLower t1) (jsToLower t2) : ℚ) /
          (max (jsLength (jsToLower t1)) (jsLength (jsToLower t2)) : ℚ)) ∧
    (∃ w : List Char, w.Sublist (jsToLower t1).data ∧ w.Sublist (jsToLower t2).data ∧
      w.length = longestCommonSubsequence (jsToLower t1) (jsToLower t2)) ∧
    (∀ w : List Char, w.Sublist (jsToLower t1).data → w.Sublist (jsToLower t2).data →
      w.length ≤ longestCommonSubsequence (jsToLower t1) (jsToLower t2)) := by
  have hcont : (strIncludes (jsToLower t1) (jsToLower t2) ||
      strIncludes (jsToLower t2) (jsToLower t1)) = true ↔
      ((∃ p q, (jsToLower t1).data = p ++ (jsToLower t2).data ++ q) ∨
        (∃ p q, (jsToLower t2).data = p ++ (jsToLower t1).data ++ q)) := by
    rw [Bool.or_eq_true, strIncludes_iff, strIncludes_iff]
  refine ⟨?_, ?_, ?_, ?_, lcsAux_exists _ _, fun w h1 h2 => lcsAux_ge _ _ w h1 h2⟩
  · intro heq
    simp only [calculateSimilarity]
    rw [if_pos heq]
  · intro hne hemp
    simp only [calculateSimilarity]
    rw [if_neg hne, if_pos hemp]
  · intro hne h1 h2 hc
    simp only [calculateSimilarity]
    rw [if_neg hne, if_neg (by tauto), if_pos (hcont.mpr hc)]
    push_cast
    rfl
  · intro hne h1 h2 hc
    simp only [calculateSimilarity]
    rw [if_neg hne, if_neg (by tauto),
      if_neg (fun hb => hc (hcont.mp hb))]

/-- Witness for C2 at a concrete containment pair: the lowercased "B" is
contained in the lowercased "aB", so the score is `1/2 + 0.2`. -/
theorem calculateSimilarity_cases_witness :
    calculateSimilarity "aB" "B" = 1/2 + 1/5 := by
  have h := (calculateSimilarity_cases "aB" "B").2.2.1
  rw [h (by decide) (by decide) (by decide) (Or.inl ⟨['a'], [], by decide⟩)]
  norm_num [show jsLength (jsToLower "aB") = 2 from by decide,
    show jsLength (jsToLower "B") = 1 from by decide]

/-! ### Claim C10: similarity is symmetric -/

/-- C10: the similarity score is symmetric in its two arguments. -/
theorem calculateSimilarity_comm (t1 t2 : String) :
    calculateSimilarity t1 t2 = calculateSimilarity t2 t1 := by
  simp only [calculateSimilarity]
  by_cases heq : jsToLower t1 = jsToLower t2
  · rw [if_pos heq, if_pos heq.symm]
  · rw [if_neg heq, if_neg (Ne.symm heq)]
    by_cases hemp : jsToLower t1 = "" ∨ jsToLower t2 = ""
    · rw [if_pos hemp, if_pos (Or.symm hemp)]
    · rw [if_neg hemp,
        if_neg (show ¬ (jsToLower t2 = "" ∨ jsToLower t1 = "") from fun h => hemp h.symm)]
      by_cases hinc : (strIncludes (jsToLower t1) (jsToLower t2) ||
          strIncludes (jsToLower t2) (jsToLower t1)) = true
      · rw [if_pos hinc, if_pos (by rwa [Bool.or_comm] at hinc)]
        rw [Nat.min_comm, Nat.max_comm]
      · rw [if_neg hinc,
          if_neg (show ¬ (strIncludes (jsToLower t2) (jsToLower t1) ||
            strIncludes (jsToLower t1) (jsToLower t2)) = true from
            fun h => hinc (by rwa [Bool.or_comm] at h))]
        rw [longestCommonSubsequence, longestCommonSubsequence, lcsAux_comm,
          max_comm ((jsLength (jsToLower t1) : ℚ)) ((jsLength (jsToLower t2) : ℚ))]

/-! ### Claim C9: deduplication returns a subsequence of its input -/

/-- Filtering by index keeps a subsequence of the input list. -/
theorem removeIndexed_sublist (rm : List Nat) : ∀ (k : Nat) (l : List ProcessedSegment),
    (removeIndexed rm k l).Sublist l := by
  intro k l
  induction l generalizing k with
  | nil => simp [removeIndexed]
  | cons s rest ih =>
    simp only [removeIndexed]
    split
    · exact (ih (k + 1)).cons s
    · exact (ih (k + 1)).cons₂ s

/-- C9: `deduplicateSegments` returns a subsequence of its input: every
output element is an input element with all fields unmodified, and the
surviving segments keep their input order. -/
theorem deduplicateSegments_sublist (l : List ProcessedSegment) (W : Int) (θ : ℚ) :
    (deduplicateSegments l W θ).Sublist l := by
  unfold deduplicateSegments
  split
  · exact List.nil_sublist _
  · exact removeIndexed_sublist _ _ _

/-! ### Claim C1: pairwise conflict resolution -/

/-- C1: when two time-ordered segments start within the 4500 ms window and
score at least the 0.68 similarity threshold, the conflict is resolved by:
drop the `system` segment of a microphone/system pair; otherwise drop the
segment with the shorter text, a length tie dropping the later segment. -/
theorem dedup_pair_resolution (a b : ProcessedSegment)
    (hab : a.startTime ≤ b.startTime)
    (hwin : b.startTime ≤ a.startTime + 4500)
    (hsim : 68/100 ≤ calculateSimilarity a.text b.text) :
    deduplicateSegments [a, b] 4500 (68/100) =
      if a.source = "microphone" ∧ b.source = "system" then [a]
      else if a.source = "system" ∧ b.source = "microphone" then [b]
      else if jsLength b.text ≤ jsLength a.text then [a] else [b] := by
  have hnotwin : ¬ (a.startTime + 4500 < b.startTime) := not_lt.mpr hwin
  split_ifs with h1 h2 h3
  · simp [deduplicateSegments, outerLoop, innerLoop, removeIndexed,
      hnotwin, hsim, h1.1, h1.2]
  · simp [deduplicateSegments, outerLoop, innerLoop, removeIndexed,
      hnotwin, hsim, h1, h2.1, h2.2]
  · simp [deduplicateSegments, outerLoop, innerLoop, removeIndexed,
      hnotwin, hsim, h1, h2, h3]
  · simp [deduplicateSegments, outerLoop, innerLoop, removeIndexed,
      hnotwin, hsim, h1, h2, h3]

/-- Witness for C1: a concrete microphone/system pair of identical texts
inside the window keeps only the microphone segment. -/
theorem dedup_pair_resolution_witness :
    deduplicateSegments
      [⟨"Hello there", "Me", 0, 0, "microphone"⟩,
       ⟨"Hello there", "Them", 1000, 1000, "system"⟩] 4500 (68/100) =
      [⟨"Hello there", "Me", 0, 0, "microphone"⟩] := by
  have hs : (68:ℚ)/100 ≤ calculateSimilarity "Hello there" "Hello there" := by
    simp [calculateSimilarity]
    norm_num
  rw [dedup_pair_resolution _ _ (by decide) (by decide) hs]
  simp

/-! ### Claim C4: deduplication is idempotent (helper development) -/

/-- Indexing helper: a valid index yields its element. -/
theorem getq (l : List ProcessedSegment) (j : Nat) (h : j < l.length) :
    l[j]? = some (l.get ⟨j, h⟩) := by
  rw [List.getElem?_eq_getElem h, List.get_eq_getElem]

/-- The inner loop only ever adds indices to `toRemove`. -/
theorem innerLoop_mem_mono (segs : List ProcessedSegment) (W : Int) (θ : ℚ)
    (seg : ProcessedSegment) (i : Nat) :
    ∀ gas j rm x, x ∈ rm → x ∈ innerLoop segs W θ seg i gas j rm := by
  intro gas
  induction gas with
  | zero =>
    intro j rm x hx
    simpa [innerLoop] using hx
  | succ gas ih =>
    intro j rm x hx
    simp only [innerLoop]
    cases hj : segs[j]? with
    | none => exact hx
    | some other =>
      simp only
      split_ifs
      · exact ih _ _ x hx
      · exact hx
      · exact ih _ _ x (List.mem_cons_of_mem _ hx)
      · exact List.mem_cons_of_mem _ hx
      · exact ih _ _ x (List.mem_cons_of_mem _ hx)
      · exact List.mem_cons_of_mem _ hx
      · exact ih _ _ x hx

/-- The outer loop only ever adds indices to `toRemove`. -/
theorem outerLoop_mem_mono (segs : List ProcessedSegment) (W : Int) (θ : ℚ) :
    ∀ gas i rm x, x ∈ rm → x ∈ outerLoop segs W θ gas i rm := by
  intro gas
  induction gas with
  | zero =>
    intro i rm x hx
    simpa [outerLoop] using hx
  | succ gas ih =>
    intro i rm x hx
    simp only [outerLoop]
    cases hi : segs[i]? with
    | none => exact hx
    | some seg =>
      simp only
      split_ifs
      · exact ih _ _ x hx
      · exact ih _ _ x (innerLoop_mem_mono segs W θ seg i _ _ _ x hx)

/-- Core scanning property of the inner loop on a time-sorted list: if the
scan starts at or before index `b`, has enough gas to reach the end of the
list, and afterwards neither `i` nor `b` has been removed, then the pair
`(seg, segs[b])` cannot have been a conflict (in-window with similarity at
or above the threshold) — otherwise the scan would have removed one of
them. -/
theorem innerLoop_conflict (segs : List ProcessedSegment) (W : Int) (θ : ℚ)
    (seg : ProcessedSegment) (i : Nat) (b : Nat) (hb : b < segs.length)
    (hmono : ∀ p q (hp : p < segs.length) (hq : q < segs.length), p ≤ q →
      (segs.get ⟨p, hp⟩).startTime ≤ (segs.get ⟨q, hq⟩).startTime) :
    ∀ gas j rm,
      i ∉ innerLoop segs W θ seg i gas j rm →
      b ∉ innerLoop segs W θ seg i gas j rm →
      j ≤ b → segs.length ≤ gas + j →
      (segs.get ⟨b, hb⟩).startTime ≤ seg.startTime + W →
      ¬ (θ ≤ calculateSimilarity seg.text (segs.get ⟨b, hb⟩).text) := by
  intro gas
  induction gas with
  | zero =>
    intro j rm _ _ hjb hgas _
    omega
  | succ gas ih =>
    intro j rm hi hb' hjb hgas hwin hsim
    have hjlt : j < segs.length := Nat.lt_of_le_of_lt hjb hb
    rw [innerLoop, getq segs j hjlt] at hi hb'
    simp only at hi hb'
    by_cases hcont : rm.contains j = true
    · rw [if_pos hcont] at hi hb'
      rcases eq_or_lt_of_le hjb with rfl | hjb'
      · exact hb' (innerLoop_mem_mono segs W θ seg i gas (j + 1) rm j (by simpa using hcont))
      · exact ih (j + 1) rm hi hb' hjb' (by omega) hwin hsim
    · rw [if_neg hcont] at hi hb'
      by_cases hwb : seg.startTime + W < (segs.get ⟨j, hjlt⟩).startTime
      · exact absurd hwb (not_lt.mpr ((hmono j b hjlt hb hjb).trans hwin))
      · rw [if_neg hwb] at hi hb'
        by_cases hsimj : θ ≤ calculateSimilarity seg.text (segs.get ⟨j, hjlt⟩).text
        · rw [if_pos hsimj] at hi hb'
          by_cases hms : seg.source = "microphone" ∧ (segs.get ⟨j, hjlt⟩).source = "system"
          · rw [if_pos hms] at hi hb'
            rcases eq_or_lt_of_le hjb with rfl | hjb'
            · exact hb' (innerLoop_mem_mono segs W θ seg i gas (j + 1) (j :: rm) j
                (List.mem_cons_self j rm))
            · exact ih (j + 1) (j :: rm) hi hb' hjb' (by omega) hwin hsim
          · rw [if_neg hms] at hi hb'
            by_cases hsm : seg.source = "system" ∧ (segs.get ⟨j, hjlt⟩).source = "microphone"
            · rw [if_pos hsm] at hi hb'
              exact hi (List.mem_cons_self i rm)
            · rw [if_neg hsm] at hi hb'
              by_cases hlen : jsLength (segs.get ⟨j, hjlt⟩).text ≤ jsLength seg.text
              · rw [if_pos hlen] at hi hb'
                rcases eq_or_lt_of_le hjb with rfl | hjb'
                · exact hb' (innerLoop_mem_mono segs W θ seg i gas (j + 1) (j :: rm) j
                    (List.mem_cons_self j rm))
                · exact ih (j + 1) (j :: rm) hi hb' hjb' (by omega) hwin hsim
              · rw [if_neg hlen] at hi hb'
                exact hi (List.mem_cons_self i rm)
        · rw [if_neg hsimj] at hi hb'
          rcases eq_or_lt_of_le hjb with rfl | hjb'
          · exact hsimj hsim
          · exact ih (j + 1) rm hi hb' hjb' (by omega) hwin hsim

/-- Core property of the full scan on a time-sorted list: two distinct
indices that both survive the outer loop can never form an in-window pair
with similarity at or above the threshold. -/
theorem outerLoop_conflict (segs : List ProcessedSegment) (W : Int) (θ : ℚ)
    (a b : Nat) (ha : a < segs.length) (hb : b < segs.length) (hab : a < b)
    (hmono : ∀ p q (hp : p < segs.length) (hq : q < segs.length), p ≤ q →
      (segs.get ⟨p, hp⟩).startTime ≤ (segs.get ⟨q, hq⟩).startTime) :
    ∀ gas i0 rm,
      a ∉ outerLoop segs W θ gas i0 rm →
      b ∉ outerLoop segs W θ gas i0 rm →
      i0 ≤ a → segs.length ≤ gas + i0 →
      (segs.get ⟨b, hb⟩).startTime ≤ (segs.get ⟨a, ha⟩).startTime + W →
      ¬ (θ ≤ calculateSimilarity (segs.get ⟨a, ha⟩).text (segs.get ⟨b, hb⟩).text) := by
  intro gas
  induction gas with
  | zero =>
    intro i0 rm _ _ hi0a hgas _ _
    omega
  | succ gas ih =>
    intro i0 rm hia hib hi0a hgas hwin hsim
    have hi0lt : i0 < segs.length := Nat.lt_of_le_of_lt hi0a ha
    rw [outerLoop, getq segs i0 hi0lt] at hia hib
    simp only at hia hib
    by_cases hcont : rm.contains i0 = true
    · rw [if_pos hcont] at hia hib
      rcases eq_or_lt_of_le hi0a with rfl | hlt
      · exact hia (outerLoop_mem_mono segs W θ gas (i0 + 1) rm i0 (by simpa using hcont))
      · exact ih (i0 + 1) rm hia hib (by omega) (by omega) hwin hsim
    · rw [if_neg hcont] at hia hib
      rcases eq_or_lt_of_le hi0a with rfl | hlt
      · have harm : i0 ∉ innerLoop segs W θ (segs.get ⟨i0, hi0lt⟩) i0
            (segs.length - (i0 + 1)) (i0 + 1) rm :=
          fun hmem => hia (outerLoop_mem_mono segs W θ gas (i0 + 1) _ i0 hmem)
        have hbrm : b ∉ innerLoop segs W θ (segs.get ⟨i0, hi0lt⟩) i0
            (segs.length - (i0 + 1)) (i0 + 1) rm :=
          fun hmem => hib (outerLoop_mem_mono segs W θ gas (i0 + 1) _ b hmem)
        exact innerLoop_conflict segs W θ (segs.get ⟨i0, hi0lt⟩) i0 b hb hmono
          (segs.length - (i0 + 1)) (i0 + 1) rm harm hbrm (by omega) (by omega) hwin hsim
      · exact ih (i0 + 1) _ hia hib (by omega) (by omega) hwin hsim

/-- If no pair starting at or after `jmin` conflicts with `seg`, the inner
loop adds nothing. -/
theorem innerLoop_no_add (segs : List ProcessedSegment) (W : Int) (θ : ℚ)
    (seg : ProcessedSegment) (i : Nat) (jmin : Nat)
    (h : ∀ j (hj : j < segs.length), jmin ≤ j →
      (segs.get ⟨j, hj⟩).startTime ≤ seg.startTime + W →
      ¬ (θ ≤ calculateSimilarity seg.text (segs.get ⟨j, hj⟩).text)) :
    ∀ gas j rm, jmin ≤ j → innerLoop segs W θ seg i gas j rm = rm := by
  intro gas
  induction gas with
  | zero =>
    intro j rm _
    rfl
  | succ gas ih =>
    intro j rm hjmin
    by_cases hjlt : j < segs.length
    · rw [innerLoop, getq segs j hjlt]
      simp only
      by_cases hcont : rm.contains j = true
      · rw [if_pos hcont]
        exact ih (j + 1) rm (by omega)
      · rw [if_neg hcont]
        by_cases hwb : seg.startTime + W < (segs.get ⟨j, hjlt⟩).startTime
        · rw [if_pos hwb]
        · rw [if_neg hwb]
          rw [if_neg (h j hjlt hjmin (not_lt.mp hwb))]
          exact ih (j + 1) rm (by omega)
    · rw [innerLoop]
      have : segs[j]? = none := by
        simp [List.getElem?_eq_none (not_lt.mp hjlt)]
      rw [this]

/-- If no in-window pair of the list conflicts, the outer loop starting
from an empty removal set removes nothing. -/
theorem outerLoop_no_remove (segs : List ProcessedSegment) (W : Int) (θ : ℚ)
    (h : ∀ p q (hp : p < segs.length) (hq : q < segs.length), p < q →
      (segs.get ⟨q, hq⟩).startTime ≤ (segs.get ⟨p, hp⟩).startTime + W →
      ¬ (θ ≤ calculateSimilarity (segs.get ⟨p, hp⟩).text (segs.get ⟨q, hq⟩).text)) :
    ∀ gas i, outerLoop segs W θ gas i [] = [] := by
  intro gas
  induction gas with
  | zero =>
    intro i
    rfl
  | succ gas ih =>
    intro i
    by_cases hilt : i < segs.length
    · rw [outerLoop, getq segs i hilt]
      simp only
      rw [if_neg (by simp)]
      rw [innerLoop_no_add segs W θ (segs.get ⟨i, hilt⟩) i (i + 1)
        (fun j hj hij hw => h i j hilt hj (by omega) hw) _ (i + 1) [] le_rfl]
      exact ih (i + 1)
    · rw [outerLoop]
      have : segs[i]? = none := by
        simp [List.getElem?_eq_none (not_lt.mp hilt)]
      rw [this]

/-- An empty removal set filters nothing. -/
theorem removeIndexed_nil : ∀ (k : Nat) (l : List ProcessedSegment),
    removeIndexed [] k l = l := by
  intro k l
  induction l generalizing k with
  | nil => rfl
  | cons s rest ih =>
    simp only [removeIndexed]
    rw [if_neg (by simp), ih]

/-- Every survivor of the index filter is an element of the input at a
position whose (offset) index is not removed. -/
theorem removeIndexed_mem : ∀ (l : List ProcessedSegment) (k : Nat) (rm : List Nat) (x),
    x ∈ removeIndexed rm k l →
    ∃ j, ∃ hj : j < l.length, x = l.get ⟨j, hj⟩ ∧ (k + j) ∉ rm := by
  intro l
  induction l with
  | nil =>
    intro k rm x hx
    simp [removeIndexed] at hx
  | cons s rest ih =>
    intro k rm x hx
    simp only [removeIndexed] at hx
    by_cases hcont : rm.contains k = true
    · rw [if_pos hcont] at hx
      obtain ⟨j, hj, hxe, hjr⟩ := ih (k + 1) rm x hx
      exact ⟨j + 1, by simpa using Nat.succ_lt_succ hj,
        by simpa [List.get_cons_succ] using hxe,
        (show k + 1 + j = k + (j + 1) from by omega) ▸ hjr⟩
    · rw [if_neg hcont] at hx
      rcases List.mem_cons.mp hx with rfl | hx'
      · exact ⟨0, by simp, rfl, by simpa using (show k ∉ rm by simpa using hcont)⟩
      · obtain ⟨j, hj, hxe, hjr⟩ := ih (k + 1) rm x hx'
        exact ⟨j + 1, by simpa using Nat.succ_lt_succ hj,
          by simpa [List.get_cons_succ] using hxe,
          (show k + 1 + j = k + (j + 1) from by omega) ▸ hjr⟩

/-- The index filter turns a pairwise property of surviving positions into
a pairwise property of the output list. -/
theorem removeIndexed_pairwise (Q : ProcessedSegment → ProcessedSegment → Prop) :
    ∀ (l : List ProcessedSegment) (k : Nat) (rm : List Nat),
      (∀ p q (hp : p < l.length) (hq : q < l.length), p < q →
        (k + p) ∉ rm → (k + q) ∉ rm → Q (l.get ⟨p, hp⟩) (l.get ⟨q, hq⟩)) →
      List.Pairwise Q (removeIndexed rm k l) := by
  intro l
  induction l with
  | nil =>
    intro k rm _
    exact List.Pairwise.nil
  | cons s rest ih =>
    intro k rm h
    have hshift : ∀ p q (hp : p < rest.length) (hq : q < rest.length), p < q →
        (k + 1 + p) ∉ rm → (k + 1 + q) ∉ rm →
        Q (rest.get ⟨p, hp⟩) (rest.get ⟨q, hq⟩) := by
      intro p q hp hq hpq hpr hqr
      have := h (p + 1) (q + 1) (by simpa using Nat.succ_lt_succ hp)
        (by simpa using Nat.succ_lt_succ hq) (by omega)
        ((show k + 1 + p = k + (p + 1) from by omega) ▸ hpr)
        ((show k + 1 + q = k + (q + 1) from by omega) ▸ hqr)
      simpa [List.get_cons_succ] using this
    simp only [removeIndexed]
    by_cases hcont : rm.contains k = true
    · rw [if_pos hcont]
      exact ih (k + 1) rm hshift
    · rw [if_neg hcont]
      refine List.pairwise_cons.mpr ⟨?_, ih (k + 1) rm hshift⟩
      intro y hy
      obtain ⟨j, hj, rfl, hjr⟩ := removeIndexed_mem rest (k + 1) rm y hy
      have := h 0 (j + 1) (by simp) (by simpa using Nat.succ_lt_succ hj) (by omega)
        (by simpa using (show k ∉ rm by simpa using hcont))
        ((show k + 1 + j = k + (j + 1) from by omega) ▸ hjr)
      simpa [List.get_cons_succ] using this

/-- If no in-window pair of the list scores at or above the threshold,
deduplication is the identity. -/
theorem dedup_no_conflict (l : List ProcessedSegment) (W : Int) (θ : ℚ)
    (h : ∀ p q (hp : p < l.length) (hq : q < l.length), p < q →
      (l.get ⟨q, hq⟩).startTime ≤ (l.get ⟨p, hp⟩).startTime + W →
      ¬ (θ ≤ calculateSimilarity (l.get ⟨p, hp⟩).text (l.get ⟨q, hq⟩).text)) :
    deduplicateSegments l W θ = l := by
  unfold deduplicateSegments
  by_cases hl : l.isEmpty
  · rw [if_pos hl]
    exact (List.isEmpty_iff.mp hl).symm
  · rw [if_neg hl, outerLoop_no_remove l W θ h l.length 0, removeIndexed_nil]

/-- C4: on a list sorted by start time (as `processTranscript` produces
before deduplicating), deduplication is idempotent: a second pass over the
single-pass output removes nothing. -/
theorem deduplicateSegments_idempotent (l : List ProcessedSegment) (W : Int) (θ : ℚ)
    (hsort : List.Pairwise (fun a b => a.startTime ≤ b.startTime) l) :
    deduplicateSegments (deduplicateSegments l W θ) W θ = deduplicateSegments l W θ := by
  have hmono : ∀ p q (hp : p < l.length) (hq : q < l.length), p ≤ q →
      (l.get ⟨p, hp⟩).startTime ≤ (l.get ⟨q, hq⟩).startTime := by
    intro p q hp hq hpq
    rcases eq_or_lt_of_le hpq with rfl | hlt
    · exact le_refl _
    · exact List.pairwise_iff_get.mp hsort ⟨p, hp⟩ ⟨q, hq⟩ hlt
  by_cases hl : l.isEmpty
  · rw [List.isEmpty_iff.mp hl]
    rfl
  · have hld : deduplicateSegments l W θ = removeIndexed (outerLoop l W θ l.length 0 []) 0 l := by
      unfold deduplicateSegments
      rw [if_neg hl]
    have hQ : List.Pairwise
        (fun x y => y.startTime ≤ x.startTime + W →
          ¬ (θ ≤ calculateSimilarity x.text y.text))
        (removeIndexed (outerLoop l W θ l.length 0 []) 0 l) := by
      apply removeIndexed_pairwise
      intro p q hp hq hpq hpRM hqRM hw
      exact outerLoop_conflict l W θ p q hp hq hpq hmono l.length 0 []
        (by simpa using hpRM) (by simpa using hqRM) (Nat.zero_le p) (by omega) hw
    rw [hld]
    apply dedup_no_conflict
    intro p q hp hq hpq hw
    exact List.pairwise_iff_get.mp hQ ⟨p, hp⟩ ⟨q, hq⟩ hpq hw

/-- Witness for C4 at a concrete sorted two-segment list. -/
theorem deduplicateSegments_idempotent_witness :
    deduplicateSegments
        (deduplicateSegments
          [⟨"hello there", "Me", 0, 0, "microphone"⟩,
           ⟨"hello there friend", "Them", 1000, 1000, "system"⟩] 4500 (68/100))
        4500 (68/100) =
      deduplicateSegments
        [⟨"hello there", "Me", 0, 0, "microphone"⟩,
         ⟨"hello there friend", "Them", 1000, 1000, "system"⟩] 4500 (68/100) :=
  deduplicateSegments_idempotent _ 4500 (68/100)
    (by simp [List.pairwise_cons])

/-! ### Claim C5: speaker grouping and rendering -/

/-- Running the format loop with an open non-empty buffer for speaker `c`
first extends the current block with the leading run of `c`-speaker
segments, then renders the remaining runs. -/
theorem formatLoop_run : ∀ (segs : List ProcessedSegment) (c : String)
    (buf lines : List String), c ≠ "" → buf ≠ [] → (∀ s ∈ segs, s.speaker ≠ "") →
    formatLoop segs lines (some c) buf =
      lines ++ [c ++ ":",
        jsTrim (String.intercalate " "
          (buf ++ (segs.takeWhile (fun t => t.speaker == c)).map (fun s => s.text))), ""] ++
        ((speakerRuns (segs.dropWhile (fun t => t.speaker == c))).map renderRun).flatten := by
  intro segs
  induction segs with
  | nil =>
    intro c buf lines hc hbuf _
    simp only [formatLoop, List.takeWhile_nil, List.dropWhile_nil, List.map_nil,
      List.append_nil]
    rw [if_pos ⟨hc, hbuf⟩]
    simp [speakerRuns]
  | cons seg rest ih =>
    intro c buf lines hc hbuf hall
    simp only [formatLoop]
    by_cases hsp : seg.speaker = c
    · rw [if_neg (by simp [hsp])]
      rw [hsp]
      rw [ih c (buf ++ [seg.text]) lines hc (by simp)
        (fun s hs => hall s (List.mem_cons_of_mem _ hs))]
      rw [List.takeWhile_cons_of_pos (by simp [hsp]),
        List.dropWhile_cons_of_pos (by simp [hsp])]
      simp
    · rw [if_pos ⟨hc, fun h => hsp h.symm⟩]
      have hseg : seg.speaker ≠ "" := hall seg (List.mem_cons_self _ _)
      rw [ih seg.speaker [seg.text]
        (lines ++ [c ++ ":", jsTrim (String.intercalate " " buf), ""]) hseg (by simp)
        (fun s hs => hall s (List.mem_cons_of_mem _ hs))]
      rw [List.takeWhile_cons_of_neg (by simp [hsp]),
        List.dropWhile_cons_of_neg (by simp [hsp])]
      rw [speakerRuns]
      simp [renderRun]

/-- Every block produced by the run decomposition has a single speaker
label. -/
theorem speakerRuns_const (l : List ProcessedSegment) :
    ∀ g ∈ speakerRuns l, ∀ a ∈ g, ∀ b ∈ g, a.speaker = b.speaker := by
  have H : ∀ n (l : List ProcessedSegment), l.length ≤ n →
      ∀ g ∈ speakerRuns l, ∀ a ∈ g, ∀ b ∈ g, a.speaker = b.speaker := by
    intro n
    induction n with
    | zero =>
      intro l hl
      rw [List.length_eq_zero.mp (Nat.le_zero.mp hl)]
      simp [speakerRuns]
    | succ n ih =>
      intro l hl g hg a ha b hb
      cases l with
      | nil => simp [speakerRuns] at hg
      | cons s rest =>
        rw [speakerRuns] at hg
        rcases List.mem_cons.mp hg with rfl | hg'
        · have hmem : ∀ x ∈ s :: rest.takeWhile (fun t => t.speaker == s.speaker),
              x.speaker = s.speaker := by
            intro x hx
            rcases List.mem_cons.mp hx with rfl | hx'
            · rfl
            · simpa using List.mem_takeWhile_imp hx'
          rw [hmem a ha, hmem b hb]
        · refine ih (rest.dropWhile (fun t => t.speaker == s.speaker)) ?_ g hg' a ha b hb
          have hlen := (List.dropWhile_sublist
            (fun t : ProcessedSegment => t.speaker == s.speaker) (l := rest)).length_le
          simp only [List.length_cons] at hl
          omega
  exact H l.length l le_rfl

/-- C5: for every list of surviving segments (whose speaker labels are the
non-empty `"Me"`, `"Them"`, `"Unknown"`), the formatter renders exactly
the maximal same-speaker runs — each block is the speaker label line, the
texts joined by single spaces in order, and a blank-line separator — and
no block ever mixes two speaker labels. -/
theorem formatTranscript_groups (l : List ProcessedSegment)
    (h : ∀ s ∈ l, s.speaker ≠ "") :
    formatTranscript l = formatSpec l ∧
      ∀ g ∈ speakerRuns l, ∀ a ∈ g, ∀ b ∈ g, a.speaker = b.speaker := by
  refine ⟨?_, speakerRuns_const l⟩
  cases l with
  | nil =>
    simp only [formatTranscript, formatSpec, speakerRuns, List.map_nil, List.flatten_nil,
      List.isEmpty_nil, if_true]
    rfl
  | cons a rest =>
    unfold formatTranscript formatSpec
    rw [if_neg (by simp)]
    simp only [formatLoop]
    rw [formatLoop_run rest a.speaker ([] ++ [a.text]) []
      (h a (List.mem_cons_self _ _)) (by simp)
      (fun s hs => h s (List.mem_cons_of_mem _ hs))]
    rw [speakerRuns]
    simp [renderRun]

/-- Witness for C5: three consecutive same-speaker segments render as the
run decomposition (a single merged block), and no block mixes speakers. -/
theorem formatTranscript_groups_witness :
    formatTranscript
        [⟨"a", "Me", 0, 0, "microphone"⟩, ⟨"b", "Me", 1, 1, "microphone"⟩,
         ⟨"c", "Me", 2, 2, "microphone"⟩] =
      formatSpec
        [⟨"a", "Me", 0, 0, "microphone"⟩, ⟨"b", "Me", 1, 1, "microphone"⟩,
         ⟨"c", "Me", 2, 2, "microphone"⟩] ∧
      ∀ g ∈ speakerRuns
        [⟨"a", "Me", 0, 0, "microphone"⟩, ⟨"b", "Me", 1, 1, "microphone"⟩,
         ⟨"c", "Me", 2, 2, "microphone"⟩], ∀ a ∈ g, ∀ b ∈ g, a.speaker = b.speaker :=
  formatTranscript_groups _ (by simp)

/-! ### Claim C6: timestamp defaults in normalization -/

/-- Counterexample to C6 as stated: a segment with a present, parseable
`start_timestamp` (here parsing to 86400000 ms, i.e. 1970-01-02) and an
absent `end_timestamp` gets `endTime = startTime = 86400000`, not 0. -/
theorem toProcessedSegment_endTime_not_zero :
    (toProcessedSegment (fun _ => 86400000)
      { text := some "hi", source := some "microphone",
        start_timestamp := some "1970-01-02T00:00:00.000Z",
        end_timestamp := none }).endTime ≠ 0 := by
  decide

/-- C6 amended: `startTimeMs` defaults to 0 when `start_timestamp` is
absent, and `endTimeMs` defaults to the computed `startTimeMs` (not to 0)
when `end_timestamp` is absent — so it is 0 only when the start time is
also 0; with a present non-empty `start_timestamp` and an absent
`end_timestamp` the end time equals the parsed start time. -/
theorem toProcessedSegment_time_defaults (getTime : String → Int) (s : TranscriptSegment) :
    (s.start_timestamp = none →
      (toProcessedSegment getTime s).startTime = 0 ∧
      (s.end_timestamp = none → (toProcessedSegment getTime s).endTime = 0)) ∧
    (s.end_timestamp = none →
      (toProcessedSegment getTime s).endTime = (toProcessedSegment getTime s).startTime) ∧
    (∀ ts, s.start_timestamp = some ts → ts ≠ "" → s.end_timestamp = none →
      (toProcessedSegment getTime s).endTime = getTime ts) := by
  refine ⟨?_, ?_, ?_⟩
  · intro h1
    refine ⟨by simp [toProcessedSegment, h1], ?_⟩
    intro h2
    simp [toProcessedSegment, h1, h2]
  · intro h2
    simp [toProcessedSegment, h2]
  · intro ts h1 hts h2
    simp [toProcessedSegment, h1, h2, hts]

/-- Witness for the amended C6 at the counterexample input. -/
theorem toProcessedSegment_time_defaults_witness :
    (toProcessedSegment (fun _ => 86400000)
      { text := some "hi", source := some "microphone",
        start_timestamp := some "1970-01-02T00:00:00.000Z",
        end_timestamp := none }).endTime = 86400000 :=
  (toProcessedSegment_time_defaults (fun _ => 86400000)
    { text := some "hi", source := some "microphone",
      start_timestamp := some "1970-01-02T00:00:00.000Z",
      end_timestamp := none }).2.2 "1970-01-02T00:00:00.000Z" rfl (by decide) rfl

/-! ### Claim C3: reconciler behaviour on malformed input -/

/-- C3 evidence: `processTranscript` throws a `TypeError` on a segment
whose `text` field is present but not a string — `s.text && s.text.trim()`
calls `.trim()` on the truthy non-string value `42` — instead of returning
a string, for every possible timestamp-parsing environment. -/
theorem processTranscript_throws_on_nonstring_text (getTime : JSValue → Int) :
    processTranscriptJS getTime (.vArr [.vObj [("text", .vNum 42)]]) = .error () := by
  rfl

/-! ### Claim C7: section emission characterization -/

/-- The extractor agrees with the slice-and-filter specification. -/
theorem extractSections_eq_spec (md : String → String) :
    ∀ nodes : List PanelNode, extractSections md nodes = sectionsSpec md nodes := by
  intro nodes
  induction nodes with
  | nil => rfl
  | cons n rest ih =>
    cases n with
    | h3 t =>
      simp only [extractSections, sectionsSpec, headingSlices, List.filterMap_cons]
      by_cases hcond : jsTrim t ≠ "" ∧
          jsTrim (md (String.join ((rest.takeWhile fun n => !isH3 n).map htmlOf))) ≠ ""
      · rw [if_pos hcond, if_pos hcond]
        simpa using ih
      · rw [if_neg hcond, if_neg hcond]
        simpa using ih
    | other h =>
      simp only [extractSections, sectionsSpec, headingSlices]
      exact ih

/-- A document with no `<h3>` produces no sections. -/
theorem extractSections_no_h3 (md : String → String) :
    ∀ nodes : List PanelNode, (∀ n ∈ nodes, isH3 n = false) →
      extractSections md nodes = [] := by
  intro nodes
  induction nodes with
  | nil =>
    intro _
    rfl
  | cons n rest ih =>
    intro h
    cases n with
    | h3 t => simpa [isH3] using h (.h3 t) (List.mem_cons_self _ _)
    | other s => exact ih fun x hx => h x (List.mem_cons_of_mem _ hx)

/-- C7: a section is emitted for an `<h3>` exactly when both the trimmed
title and the trimmed Markdown of the sibling content up to the next
`<h3>` (or end) are non-empty (the slice-and-filter specification); when
the converter renders nothing from nothing, an `<h3>` immediately followed
by another `<h3>` or by the end of the document contributes no section;
and a document without `<h3>` contributes zero sections. -/
theorem extractSections_characterization (md : String → String) (nodes : List PanelNode) :
    extractSections md nodes = sectionsSpec md nodes ∧
    (jsTrim (md "") = "" →
      (∀ t t' rest, extractSections md (.h3 t :: .h3 t' :: rest) =
        extractSections md (.h3 t' :: rest)) ∧
      (∀ t, extractSections md [.h3 t] = [])) ∧
    ((∀ n ∈ nodes, isH3 n = false) → extractSections md nodes = []) := by
  refine ⟨extractSections_eq_spec md nodes, ?_, extractSections_no_h3 md nodes⟩
  intro hmd
  constructor
  · intro t t' rest
    simp only [extractSections]
    rw [List.takeWhile_cons_of_neg (by simp [isH3])]
    simp [hmd]
    exact fun _ => hmd
  · intro t
    simp only [extractSections]
    simp [hmd, extractSections]
    exact fun _ => hmd

/-- Witness for C7 with the identity converter: a heading followed only by
another heading emits nothing for the first heading, and the extractor
agrees with the specification on a concrete document. -/
theorem extractSections_characterization_witness :
    extractSections id [.h3 "T", .other "<p>x</p>", .h3 "U"] =
      sectionsSpec id [.h3 "T", .other "<p>x</p>", .h3 "U"] ∧
    extractSections id [.h3 "A", .h3 "B"] = extractSections id [.h3 "B"] :=
  ⟨(extractSections_characterization id [.h3 "T", .other "<p>x</p>", .h3 "U"]).1,
   ((extractSections_characterization id []).2.1 (by decide)).1 "A" "B" []⟩

/-! ### Claim C8: ordered-list item numbering -/

/-- C8: the `listItem` rule renders the item at zero-based position `k` of
an ordered list with the numeric label `start + k` (the `start` attribute
defaulting to 1), followed by `". "` and the cleaned content. -/
theorem listItem_ordered_numbering (olStart : Option Int) (items : List String)
    (k : Nat) (hk : k < items.length) :
    (renderOlItems olStart items)[k]? =
      some (toString (olStart.getD 1 + (k : Int)) ++ ". " ++
        (⟨replaceNewlines (trimChars (items.get ⟨k, hk⟩).data)⟩ : String) ++ "\n") := by
  simp only [renderOlItems, List.getElem?_map]
  rw [show items.enum[k]? = some (k, items.get ⟨k, hk⟩) by
    simp [List.getElem?_enum, List.getElem?_eq_getElem hk, List.get_eq_getElem]]
  simp [listItemReplacement]

/-- Witness for C8: a list with `start="3"` renders its first item as
`"3. "` and its second as `"4. "`. -/
theorem listItem_ordered_numbering_witness :
    (renderOlItems (some 3) ["a", "b"])[0]? = some "3. a\n" ∧
    (renderOlItems (some 3) ["a", "b"])[1]? = some "4. b\n" := by
  constructor
  · rw [listItem_ordered_numbering (some 3) ["a", "b"] 0 (by decide)]
    decide
  · rw [listItem_ordered_numbering (some 3) ["a", "b"] 1 (by decide)]
    decide

/-- Every normalized segment carries one of the three non-empty speaker
labels, which justifies the non-empty-speaker hypothesis of the formatting
theorem for surviving pipeline segments. -/
theorem toProcessedSegment_speaker_nonempty (getTime : String → Int) (s : TranscriptSegment) :
    (toProcessedSegment getTime s).speaker = "Me" ∨
    (toProcessedSegment getTime s).speaker = "Them" ∨
    (toProcessedSegment getTime s).speaker = "Unknown" := by
  simp only [toProcessedSegment]
  split_ifs <;> simp

/-- Witness for C3 under a concrete timestamp-parsing environment. -/
theorem processTranscript_throws_on_nonstring_text_witness :
    processTranscriptJS (fun _ => 0) (.vArr [.vObj [("text", .vNum 42)]]) = .error () :=
  processTranscript_throws_on_nonstring_text (fun _ => 0)
